import Mathlib

/-!
Shallow embedding of `src/html-to-json-converter.js`.

The converter scans raw HTML text with independent per-construct regex
passes and builds a JSON-like document tree.  HTML content is modelled as
`List Char`; the JavaScript regex loops are modelled by explicit scanning
functions that mirror the engine semantics of the concrete patterns used
by the source (`<tag(?:\s[^>]*)?>` followed by a lazy body and the literal
closing tag, restarting after each match).
-/

set_option maxRecDepth 10000

/-- The nine boolean formatting attributes used by the `formattingTags`
table in `parseFormattedContent`. -/
inductive Attr where
  | italic
  | bold
  | underline
  | strikethrough
  | code
  | highlight
  | small
  | subscript
  | superscript
deriving DecidableEq, Repr

/-- One entry of the `formattingTags` table: opening marker, closing
marker (the source calls it `end`), attribute name. -/
structure FmtTag where
  start : List Char
  stop : List Char
  attr : Attr
deriving DecidableEq, Repr

/-- A text run: `{type: "text", value, ...flags}`.  The JavaScript object
can in principle carry any set of boolean attribute keys, so flags are
modelled as a list of set attributes. -/
structure TextRun where
  value : List Char
  flags : List Attr
deriving DecidableEq, Repr

/-- `listType` of a list node. -/
inductive ListKind where
  | unordered
  | ordered
deriving DecidableEq, Repr

/-- A list item node `{type: "listItem", children}`. -/
structure LItem where
  children : List TextRun
deriving DecidableEq, Repr

/-- Block-level nodes: the possible children of the root. -/
inductive Block where
  | paragraph (children : List TextRun)
  | list (listType : ListKind) (children : List LItem)
  | heading (level : Nat) (children : List TextRun)
deriving DecidableEq, Repr

/-- The document root `{type: "root", children}`. -/
inductive Node where
  | root (children : List Block)
deriving DecidableEq, Repr

/-- Children of the root. -/
def Node.rootChildren : Node → List Block
  | .root cs => cs

/-- Auxiliary scan for `String.prototype.indexOf`: smallest offset of
`pat` in `s`, counting from `i`. -/
def indexOfAux (pat : List Char) : List Char → Nat → Option Nat
  | [], i => if pat.isPrefixOf ([] : List Char) then some i else none
  | c :: t, i =>
    if pat.isPrefixOf (c :: t) then some i else indexOfAux pat t (i + 1)

/-- `content.indexOf(pat, start)` : first occurrence of `pat` at an index
greater than or equal to `start`, as in JavaScript. -/
def indexOfFrom (pat s : List Char) (start : Nat) : Option Nat :=
  match indexOfAux pat (s.drop start) 0 with
  | some k => some (start + k)
  | none => none

/-- `content.substring(a, b)` for the in-range, non-swapped uses that
occur in the source. -/
def extract (s : List Char) (a b : Nat) : List Char :=
  (s.drop a).take (b - a)

/-- The fixed `formattingTags` table of `parseFormattedContent`. -/
def formattingTags : List FmtTag :=
  [ ⟨"<em>".toList, "</em>".toList, .italic⟩,
    ⟨"<i>".toList, "</i>".toList, .italic⟩,
    ⟨"<strong>".toList, "</strong>".toList, .bold⟩,
    ⟨"<b>".toList, "</b>".toList, .bold⟩,
    ⟨"<u>".toList, "</u>".toList, .underline⟩,
    ⟨"<strike>".toList, "</strike>".toList, .strikethrough⟩,
    ⟨"<s>".toList, "</s>".toList, .strikethrough⟩,
    ⟨"<del>".toList, "</del>".toList, .strikethrough⟩,
    ⟨"<code>".toList, "</code>".toList, .code⟩,
    ⟨"<mark>".toList, "</mark>".toList, .highlight⟩,
    ⟨"<small>".toList, "</small>".toList, .small⟩,
    ⟨"<sub>".toList, "</sub>".toList, .subscript⟩,
    ⟨"<sup>".toList, "</sup>".toList, .superscript⟩ ]

/-- One discovered formatting span: the `tagPositions` record
`{start, end, contentStart, contentEnd, attr}` (the `end` field is named
`stop` here because `end` is reserved in Lean). -/
structure TagPos where
  start : Nat
  stop : Nat
  contentStart : Nat
  contentEnd : Nat
  attr : Attr
deriving DecidableEq, Repr

/-- The `while` loop of `parseFormattedContent` for one table entry:
repeated `indexOf` of the opening then the closing marker, resuming just
after the closing marker.  Fuel bounds the number of iterations; the
caller passes `content.length + 1`, more than the loop can ever use since
every iteration advances the search position. -/
def scanTag (content : List Char) (tag : FmtTag) : Nat → Nat → List TagPos
  | 0, _ => []
  | fuel + 1, si =>
    match indexOfFrom tag.start content si with
    | none => []
    | some s0 =>
      match indexOfFrom tag.stop content (s0 + tag.start.length) with
      | none => []
      | some e0 =>
        { start := s0, stop := e0 + tag.stop.length,
          contentStart := s0 + tag.start.length, contentEnd := e0,
          attr := tag.attr } ::
        scanTag content tag fuel (e0 + tag.stop.length)

/-- All spans found by the independent per-tag scans, in table order
(the source pushes them into one array while iterating the table). -/
def tagPositions (content : List Char) : List TagPos :=
  (formattingTags.map (fun t => scanTag content t (content.length + 1) 0)).flatten

/-- Insertion step of a stable sort by `start` offset, modelling the
source `tagPositions.sort((a, b) => a.start - b.start)` (ECMAScript sort
is stable). -/
def insertByStart (p : TagPos) : List TagPos → List TagPos
  | [] => [p]
  | q :: rest =>
    if p.start ≤ q.start then p :: q :: rest else q :: insertByStart p rest

/-- Stable sort of the discovered spans by `start` offset. -/
def sortByStart : List TagPos → List TagPos
  | [] => []
  | p :: rest => insertByStart p (sortByStart rest)

/-- The walk of `parseFormattedContent` over the sorted spans: plain text
strictly between `lastIndex` and the next span start (pushed only when
truthy), then the span run with its single attribute, then the rest from
the end of the span; trailing plain text after the last span. -/
def buildRuns (content : List Char) : Nat → List TagPos → List TextRun
  | li, [] =>
    if li < content.length then
      (if content.drop li = [] then [] else [⟨content.drop li, []⟩])
    else []
  | li, pos :: rest =>
    (if li < pos.start then
      (if extract content li pos.start = [] then []
       else [⟨extract content li pos.start, []⟩])
     else [])
    ++ (⟨extract content pos.contentStart pos.contentEnd, [pos.attr]⟩ ::
        buildRuns content pos.stop rest)

/-- `parseFormattedContent`: the inline-run segmenter.  Returns the list
of runs appended to the children array of the caller. -/
def parseFormattedContent (content : List Char) : List TextRun :=
  if tagPositions content = [] then [⟨content, []⟩]
  else buildRuns content 0 (sortByStart (tagPositions content))

/-- The JavaScript `\s` class, restricted to the code points that can
occur in the inputs modelled here. -/
def isJsSpace (c : Char) : Bool :=
  c == ' ' || c == '\t' || c == '\n' || c == '\r' ||
  c == Char.ofNat 11 || c == Char.ofNat 12 || c == Char.ofNat 160

/-- `String.prototype.trim`. -/
def jsTrim (s : List Char) : List Char :=
  ((s.dropWhile isJsSpace).reverse.dropWhile isJsSpace).reverse

/-- Attempt to match the opening-tag pattern `<tag(?:\s[^>]*)?>` at
offset `i`; on success returns the offset just after `>`, where the lazy
body group starts.  The optional attribute group consumes a whitespace
character followed by non-`>` characters up to the first `>`. -/
def matchOpenAt (tagName s : List Char) (i : Nat) : Option Nat :=
  if ('<' :: tagName).isPrefixOf (s.drop i) then
    match s.drop (i + 1 + tagName.length) with
    | [] => none
    | ch :: _ =>
      if ch = '>' then some (i + 1 + tagName.length + 1)
      else if isJsSpace ch then
        match indexOfFrom ['>'] s (i + 1 + tagName.length + 1) with
        | some m => some (m + 1)
        | none => none
      else none
  else none

/-- The global-regex `exec` loop for one block pattern
`<tag(?:\s[^>]*)?>([\s\S]*?)</tag>`: the engine tries successive start
offsets; after a failed offset it moves one character right, after a
match it resumes at the match end.  Returns the captured (lazy, hence
shortest) body of each match, in document order. -/
def findBlocksAux (tagName s : List Char) : Nat → Nat → List (List Char)
  | 0, _ => []
  | fuel + 1, i =>
    if s.length < i then []
    else
      match matchOpenAt tagName s i with
      | some cs =>
        match indexOfFrom ('<' :: '/' :: (tagName ++ ['>'])) s cs with
        | some k =>
          extract s cs k :: findBlocksAux tagName s fuel (k + tagName.length + 3)
        | none => findBlocksAux tagName s fuel (i + 1)
      | none => findBlocksAux tagName s fuel (i + 1)

/-- All bodies of `<tag ...>...</tag>` matches in `s`. -/
def findBlocks (tagName s : List Char) : List (List Char) :=
  findBlocksAux tagName s (s.length + 2) 0

/-- Inner contents of the `<p ...>...</p>` matches of the paragraph pass
of `htmlToJson`, in document order. -/
def paragraphContents (s : List Char) : List (List Char) :=
  findBlocks ['p'] s

/-- Build one paragraph node from its inner content: empty/whitespace
content, or content whose trim is exactly `<br>`, collapses to the single
run `" "`; anything else goes through the segmenter. -/
def mkParagraph (c : List Char) : Block :=
  if jsTrim c = [] ∨ jsTrim c = "<br>".toList then
    .paragraph [⟨[' '], []⟩]
  else
    .paragraph (parseFormattedContent c)

/-- The paragraph pass of `htmlToJson`. -/
def paragraphPass (s : List Char) : List Block :=
  (paragraphContents s).map mkParagraph

/-- Build one list item node (`processListItems` body). -/
def mkListItem (c : List Char) : LItem :=
  ⟨parseFormattedContent c⟩

/-- The `<ul>` pass of `processLists`: each list body is scanned for
`<li ...>...</li>` items. -/
def ulPass (s : List Char) : List Block :=
  (findBlocks "ul".toList s).map
    (fun body => .list .unordered ((findBlocks "li".toList body).map mkListItem))

/-- The `<ol>` pass of `processLists`. -/
def olPass (s : List Char) : List Block :=
  (findBlocks "ol".toList s).map
    (fun body => .list .ordered ((findBlocks "li".toList body).map mkListItem))

/-- The tag name `hN` used by `processHeadings` for level `N`. -/
def hTag (lvl : Nat) : List Char :=
  ['h', Char.ofNat (48 + lvl)]

/-- Build one heading node. -/
def mkHeading (lvl : Nat) (c : List Char) : Block :=
  .heading lvl (parseFormattedContent c)

/-- One level of the heading pass of `processHeadings`. -/
def hPass (s : List Char) (lvl : Nat) : List Block :=
  (findBlocks (hTag lvl) s).map (mkHeading lvl)

/-- `processHeadings`: levels 1 through 6, in that order. -/
def headingPass (s : List Char) : List Block :=
  hPass s 1 ++ hPass s 2 ++ hPass s 3 ++ hPass s 4 ++ hPass s 5 ++ hPass s 6

/-- `htmlToJson`: the root node collects the passes in source order —
paragraphs, then unordered lists, then ordered lists, then headings.  The
body of the source `try` block consists solely of total scanning and list
operations, so the `catch` branch (which would return the partially
assembled root) is unreachable and the full root is always returned. -/
def htmlToJson (s : List Char) : Node :=
  .root (paragraphPass s ++ (ulPass s ++ olPass s) ++ headingPass s)

/-- All text runs of one block node (for a list node, the runs of its
list items in order). -/
def blockRuns : Block → List TextRun
  | .paragraph rs => rs
  | .list _ its => (its.map LItem.children).flatten
  | .heading _ rs => rs

/-- All text runs of a document tree. -/
def collectRuns : Node → List TextRun
  | .root bs => (bs.map blockRuns).flatten

/-- Concatenation of the `value` fields of a run sequence, in order. -/
def concatValues (rs : List TextRun) : List Char :=
  (rs.map TextRun.value).flatten

/-!  CSV row processing (`processCSV`).  A row is an association list of
column name to cell content.  The per-cell conversion
(`JSON.stringify(htmlToJson(...))` in the source) is abstracted as a
function that may fail, so that the defensive `try`/`catch` around a
single cell can be stated: the catch keeps the original row and records a
warning with the one-based row index. -/

/-- A CSV record: column names with cell contents. -/
abbrev Row := List (String × List Char)

/-- `record[col]` lookup. -/
def lookupCol : Row → String → Option (List Char)
  | [], _ => none
  | (k, v) :: t, c => if k = c then some v else lookupCol t c

/-- `newRecord[col] = v` on a copied record. -/
def setCol (r : Row) (col : String) (v : List Char) : Row :=
  r.map (fun kv => if kv.1 = col then (kv.1, v) else kv)

/-- Processing of one record in the `records.map` of `processCSV`: the
column is converted only when present and with non-empty trimmed content;
a conversion error keeps the original record and reports it. -/
def processRecord (conv : List Char → Except String (List Char))
    (col : String) (r : Row) : Row × Option String :=
  match lookupCol r col with
  | none => (r, none)
  | some html =>
    if html ≠ [] ∧ jsTrim html ≠ [] then
      match conv html with
      | .ok out => (setCol r col out, none)
      | .error e => (r, some e)
    else (r, none)

/-- The whole `records.map((record, index) => ...)` of `processCSV`,
threading the row index; the second component is the list of one-based
row indices for which the per-row catch fired. -/
def processAll (conv : List Char → Except String (List Char))
    (col : String) : Nat → List Row → List Row × List Nat
  | _, [] => ([], [])
  | i, r :: rs =>
    let p := processRecord conv col r
    let q := processAll conv col (i + 1) rs
    (p.1 :: q.1, (match p.2 with | some _ => [i + 1] | none => []) ++ q.2)

/-!  Spec-side notions used to state the claims about the segmenter. -/

/-- All opening and closing markers of the formatting-tag table. -/
def allMarkers : List (List Char) :=
  formattingTags.foldr (fun t acc => t.start :: t.stop :: acc) []

/-- Modelled from the spec: the "formatting-marker-stripped form" of a
string — a left-to-right scan deleting every marker occurrence.  (No two
distinct markers can match at the same offset, so the scan is
order-independent.)  The fuel argument is the remaining length. -/
def stripAux : Nat → List Char → List Char
  | 0, s => s
  | fuel + 1, s =>
    match allMarkers.find? (fun m => m.isPrefixOf s) with
    | some m => stripAux fuel (s.drop m.length)
    | none =>
      match s with
      | [] => []
      | c :: t => c :: stripAux fuel t

/-- Modelled from the spec: delete every formatting-marker occurrence. -/
def stripMarkers (s : List Char) : List Char :=
  stripAux s.length s

/-- The spans are pairwise non-overlapping and lie at or after `li`,
walking left to right. -/
def spansDisjointFrom (li : Nat) : List TagPos → Bool
  | [] => true
  | p :: rest => decide (li ≤ p.start) && spansDisjointFrom p.stop rest

/-- The input with the two markers of each listed span deleted in place:
plain text up to the span start, then the inner text of the span, continuing
after the span. -/
def removeSpans (c : List Char) : Nat → List TagPos → List Char
  | li, [] => c.drop li
  | li, p :: rest =>
    extract c li p.start ++ extract c p.contentStart p.contentEnd ++
    removeSpans c p.stop rest

/-- The input reassembled from the decomposition induced by the listed
spans: plain text, opening marker, inner text, closing marker, rest. -/
def rebuildSpans (c : List Char) : Nat → List TagPos → List Char
  | li, [] => c.drop li
  | li, p :: rest =>
    extract c li p.start ++ extract c p.start p.contentStart ++
    extract c p.contentStart p.contentEnd ++ extract c p.contentEnd p.stop ++
    rebuildSpans c p.stop rest

/-- The region `[start, contentStart)` of the span really is the opening
marker, and `[contentEnd, stop)` really is the closing marker, of a table
entry carrying the attribute of the span. -/
def IsMarkerSpan (c : List Char) (p : TagPos) : Prop :=
  ∃ t, t ∈ formattingTags ∧ t.attr = p.attr ∧
    extract c p.start p.contentStart = t.start ∧
    extract c p.contentEnd p.stop = t.stop ∧
    p.stop ≤ c.length

/-- Internal well-formedness of a span produced by the per-tag scans:
its offsets are consistent with one table entry whose markers occur at
the recorded positions. -/
def SpanWF (c : List Char) (p : TagPos) : Prop :=
  ∃ t, t ∈ formattingTags ∧ t.attr = p.attr ∧
    p.contentStart = p.start + t.start.length ∧
    p.stop = p.contentEnd + t.stop.length ∧
    t.start.isPrefixOf (c.drop p.start) = true ∧
    t.stop.isPrefixOf (c.drop p.contentEnd) = true ∧
    p.contentStart ≤ p.contentEnd ∧ p.stop ≤ c.length

/-!  Helper lemmas. -/

theorem prefixTake (p : List Char) :
    ∀ (s : List Char), p.isPrefixOf s = true →
      s.take p.length = p ∧ p.length ≤ s.length := by
  induction p with
  | nil => intro s _; simp
  | cons a p ih =>
    intro s h
    cases s with
    | nil => simp [List.isPrefixOf] at h
    | cons b s =>
      rw [List.isPrefixOf, Bool.and_eq_true] at h
      have hab : a = b := by simpa using h.1
      obtain ⟨h1, h2⟩ := ih s h.2
      refine ⟨?_, by simpa using Nat.succ_le_succ h2⟩
      simp [h1, hab]

theorem indexOfAuxSome (pat : List Char) :
    ∀ (s : List Char) (j i : Nat), indexOfAux pat s j = some i →
      j ≤ i ∧ pat.isPrefixOf (s.drop (i - j)) = true := by
  intro s
  induction s with
  | nil =>
    intro j i h
    rw [indexOfAux] at h
    split at h
    · obtain rfl : j = i := by simpa using h
      simpa [Nat.sub_self] using ‹pat.isPrefixOf ([] : List Char) = true›
    · simp at h
  | cons c t ih =>
    intro j i h
    rw [indexOfAux] at h
    split at h
    · obtain rfl : j = i := by simpa using h
      simpa [Nat.sub_self] using ‹pat.isPrefixOf (c :: t) = true›
    · obtain ⟨hj, hp⟩ := ih (j + 1) i h
      refine ⟨by omega, ?_⟩
      have harith : i - j = (i - (j + 1)) + 1 := by omega
      rw [harith, List.drop_succ_cons]
      exact hp

theorem indexOfFromSome (pat s : List Char) (a i : Nat)
    (h : indexOfFrom pat s a = some i) :
    a ≤ i ∧ pat.isPrefixOf (s.drop i) = true := by
  unfold indexOfFrom at h
  cases haux : indexOfAux pat (s.drop a) 0 with
  | none => rw [haux] at h; simp at h
  | some k =>
    rw [haux] at h
    obtain rfl : a + k = i := by simpa using h
    obtain ⟨_, hp⟩ := indexOfAuxSome pat (s.drop a) 0 k haux
    rw [Nat.sub_zero, List.drop_drop] at hp
    exact ⟨Nat.le_add_right a k, hp⟩

theorem indexBound (pat s : List Char) (i : Nat) (hne : pat ≠ [])
    (h : pat.isPrefixOf (s.drop i) = true) : i + pat.length ≤ s.length := by
  obtain ⟨_, hlen⟩ := prefixTake pat (s.drop i) h
  rw [List.length_drop] at hlen
  have hpos : 0 < pat.length := List.length_pos.mpr hne
  omega

theorem extractGlue (s : List Char) (a b d : Nat) (h1 : a ≤ b) (h2 : b ≤ d) :
    extract s a d = extract s a b ++ extract s b d := by
  unfold extract
  have hd : d - a = (b - a) + (d - b) := by omega
  rw [hd, List.take_add, List.drop_drop]
  have hb : a + (b - a) = b := by omega
  rw [hb]

theorem extractDrop (s : List Char) (a b : Nat) (h : a ≤ b) :
    extract s a b ++ s.drop b = s.drop a := by
  unfold extract
  have hb : s.drop b = (s.drop a).drop (b - a) := by
    rw [List.drop_drop]; congr 1; omega
  rw [hb, List.take_append_drop]

theorem extractNil (s : List Char) (a b : Nat) (h : b ≤ a) :
    extract s a b = [] := by
  unfold extract
  rw [Nat.sub_eq_zero_of_le h, List.take_zero]

theorem concatValuesAppend (a b : List TextRun) :
    concatValues (a ++ b) = concatValues a ++ concatValues b := by
  simp [concatValues]

theorem concatValuesCons (r : TextRun) (rs : List TextRun) :
    concatValues (r :: rs) = r.value ++ concatValues rs := by
  simp [concatValues]

theorem formattingTagsNonempty :
    ∀ t ∈ formattingTags, t.start ≠ [] ∧ t.stop ≠ [] := by decide

theorem scanTagWF (c : List Char) (t : FmtTag) (ht : t.stop ≠ []) :
    ∀ (fuel si : Nat) (p : TagPos), p ∈ scanTag c t fuel si →
      p.attr = t.attr ∧ p.contentStart = p.start + t.start.length ∧
      p.stop = p.contentEnd + t.stop.length ∧
      t.start.isPrefixOf (c.drop p.start) = true ∧
      t.stop.isPrefixOf (c.drop p.contentEnd) = true ∧
      p.contentStart ≤ p.contentEnd ∧ p.stop ≤ c.length := by
  intro fuel
  induction fuel with
  | zero => intro si p hp; simp [scanTag] at hp
  | succ fuel ih =>
    intro si p hp
    rw [scanTag] at hp
    cases h1 : indexOfFrom t.start c si with
    | none => rw [h1] at hp; simp at hp
    | some s0 =>
      simp only [h1] at hp
      cases h2 : indexOfFrom t.stop c (s0 + t.start.length) with
      | none => rw [h2] at hp; simp at hp
      | some e0 =>
        simp only [h2] at hp
        rcases List.mem_cons.mp hp with heq | hmem
        · subst heq
          obtain ⟨hs1, hp1⟩ := indexOfFromSome _ _ _ _ h1
          obtain ⟨hs2, hp2⟩ := indexOfFromSome _ _ _ _ h2
          exact ⟨rfl, rfl, rfl, hp1, hp2, hs2, indexBound _ _ _ ht hp2⟩
        · exact ih _ p hmem

theorem tagPositionsWF (c : List Char) :
    ∀ p ∈ tagPositions c, SpanWF c p := by
  intro p hp
  unfold tagPositions at hp
  rw [List.mem_flatten] at hp
  obtain ⟨l, hl, hpl⟩ := hp
  rw [List.mem_map] at hl
  obtain ⟨t, htags, rfl⟩ := hl
  obtain ⟨_, hstop⟩ := formattingTagsNonempty t htags
  obtain ⟨ha, h2, h3, h4, h5, h6, h7⟩ := scanTagWF c t hstop _ _ p hpl
  exact ⟨t, htags, ha.symm, h2, h3, h4, h5, h6, h7⟩

theorem memInsertByStart (p q : TagPos) :
    ∀ (l : List TagPos), p ∈ insertByStart q l → p = q ∨ p ∈ l := by
  intro l
  induction l with
  | nil => intro h; rw [insertByStart] at h; simp at h; exact Or.inl h
  | cons r t ih =>
    intro h
    rw [insertByStart] at h
    split at h
    · exact List.mem_cons.mp h
    · rcases List.mem_cons.mp h with h1 | h2
      · exact Or.inr (h1 ▸ List.mem_cons_self r t)
      · rcases ih h2 with h3 | h4
        · exact Or.inl h3
        · exact Or.inr (List.mem_cons_of_mem r h4)

theorem memSortByStart (p : TagPos) :
    ∀ (l : List TagPos), p ∈ sortByStart l → p ∈ l := by
  intro l
  induction l with
  | nil => intro h; rw [sortByStart] at h; simp at h
  | cons q t ih =>
    intro h
    rw [sortByStart] at h
    rcases memInsertByStart p q _ h with h1 | h2
    · exact h1 ▸ List.mem_cons_self q t
    · exact List.mem_cons_of_mem q (ih h2)

theorem concatBuildRuns (c : List Char) :
    ∀ (spans : List TagPos) (li : Nat),
      concatValues (buildRuns c li spans) = removeSpans c li spans := by
  intro spans
  induction spans with
  | nil =>
    intro li
    rw [buildRuns, removeSpans]
    by_cases h : li < c.length
    · rw [if_pos h]
      by_cases h2 : c.drop li = []
      · rw [if_pos h2, h2]; simp [concatValues]
      · rw [if_neg h2]; simp [concatValues]
    · rw [if_neg h]
      have hnil : c.drop li = [] := List.drop_eq_nil_iff.mpr (by omega)
      rw [hnil]; simp [concatValues]
  | cons p rest ih =>
    intro li
    rw [buildRuns, removeSpans, concatValuesAppend, concatValuesCons, ih]
    rw [List.append_assoc]
    congr 1
    by_cases h : li < p.start
    · rw [if_pos h]
      by_cases h2 : extract c li p.start = []
      · rw [if_pos h2, h2]; simp [concatValues]
      · rw [if_neg h2]; simp [concatValues]
    · rw [if_neg h]
      rw [extractNil c li p.start (by omega)]
      simp [concatValues]

theorem rebuildEq (c : List Char) :
    ∀ (spans : List TagPos) (li : Nat),
      (∀ p ∈ spans,
        p.start ≤ p.contentStart ∧ p.contentStart ≤ p.contentEnd ∧
        p.contentEnd ≤ p.stop) →
      spansDisjointFrom li spans = true →
      rebuildSpans c li spans = c.drop li := by
  intro spans
  induction spans with
  | nil => intro li _ _; rw [rebuildSpans]
  | cons p rest ih =>
    intro li hwf hd
    rw [spansDisjointFrom, Bool.and_eq_true, decide_eq_true_eq] at hd
    obtain ⟨h1, h2⟩ := hd
    obtain ⟨w1, w2, w3⟩ := hwf p (List.mem_cons_self p rest)
    rw [rebuildSpans]
    rw [ih p.stop (fun q hq => hwf q (List.mem_cons_of_mem p hq)) h2]
    simp only [List.append_assoc]
    rw [extractDrop c p.contentEnd p.stop w3]
    rw [extractDrop c p.contentStart p.contentEnd w2]
    rw [extractDrop c p.start p.contentStart w1]
    rw [extractDrop c li p.start h1]

theorem buildRunsFlags (c : List Char) :
    ∀ (spans : List TagPos) (li : Nat) (r : TextRun),
      r ∈ buildRuns c li spans → r.flags = [] ∨ ∃ a, r.flags = [a] := by
  intro spans
  induction spans with
  | nil =>
    intro li r hr
    rw [buildRuns] at hr
    split at hr
    · split at hr
      · simp at hr
      · rw [List.mem_singleton] at hr; subst hr; exact Or.inl rfl
    · simp at hr
  | cons p rest ih =>
    intro li r hr
    rw [buildRuns] at hr
    rcases List.mem_append.mp hr with hl | hrt
    · split at hl
      · split at hl
        · simp at hl
        · rw [List.mem_singleton] at hl; subst hl; exact Or.inl rfl
      · simp at hl
    · rcases List.mem_cons.mp hrt with heq | hmem
      · subst heq; exact Or.inr ⟨p.attr, rfl⟩
      · exact ih _ r hmem

theorem parseFlags (c : List Char) (r : TextRun)
    (h : r ∈ parseFormattedContent c) :
    r.flags = [] ∨ ∃ a, r.flags = [a] := by
  unfold parseFormattedContent at h
  split at h
  · rw [List.mem_singleton] at h; subst h; exact Or.inl rfl
  · exact buildRunsFlags c _ 0 r h

theorem buildRunsPlainNonempty (c : List Char) :
    ∀ (spans : List TagPos) (li : Nat) (r : TextRun),
      r ∈ buildRuns c li spans → r.flags = [] → r.value ≠ [] := by
  intro spans
  induction spans with
  | nil =>
    intro li r hr _
    rw [buildRuns] at hr
    split at hr
    · split at hr
      · simp at hr
      · rw [List.mem_singleton] at hr; subst hr; simpa using ‹¬c.drop li = []›
    · simp at hr
  | cons p rest ih =>
    intro li r hr hfl
    rw [buildRuns] at hr
    rcases List.mem_append.mp hr with hl | hrt
    · split at hl
      · split at hl
        · simp at hl
        · rw [List.mem_singleton] at hl; subst hl
          simpa using ‹¬extract c li p.start = []›
      · simp at hl
    · rcases List.mem_cons.mp hrt with heq | hmem
      · subst heq; simp at hfl
      · exact ih _ r hmem hfl

theorem mapNth {α β : Type} (f : α → β) :
    ∀ (l : List α) (i : Nat), (l.map f)[i]? = (l[i]?).map f := by
  intro l
  induction l with
  | nil => intro i; simp
  | cons a t ih =>
    intro i
    cases i with
    | zero => simp
    | succ j =>
      rw [List.map_cons, List.getElem?_cons_succ, List.getElem?_cons_succ]
      exact ih j

theorem processAllFst (conv : List Char → Except String (List Char))
    (col : String) :
    ∀ (records : List Row) (n : Nat),
      (processAll conv col n records).1 =
        records.map (fun r => (processRecord conv col r).1) := by
  intro records
  induction records with
  | nil => intro n; rfl
  | cons r rs ih => intro n; simp [processAll, ih (n + 1)]

theorem processAllWarn (conv : List Char → Except String (List Char))
    (col : String) :
    ∀ (records : List Row) (n i : Nat) (r : Row),
      records[i]? = some r → (processRecord conv col r).2.isSome = true →
      (n + i + 1) ∈ (processAll conv col n records).2 := by
  intro records
  induction records with
  | nil => intro n i r h; simp at h
  | cons a t ih =>
    intro n i r h hw
    cases i with
    | zero =>
      have hra : a = r := by simpa using h
      obtain ⟨e, hp⟩ := Option.isSome_iff_exists.mp hw
      subst hra
      simp [processAll, hp]
    | succ j =>
      have h2 : t[j]? = some r := by simpa using h
      have h3 := ih (n + 1) j r h2 hw
      rw [processAll]
      refine List.mem_append.mpr (Or.inr ?_)
      have harith : n + 1 + j + 1 = n + (j + 1) + 1 := by omega
      rw [harith] at h3
      exact h3

theorem lookupSetColNe (col c : String) (v : List Char) (hne : c ≠ col) :
    ∀ r : Row, lookupCol (setCol r col v) c = lookupCol r c := by
  intro r
  induction r with
  | nil => rfl
  | cons kv t ih =>
    rw [setCol, List.map_cons]
    by_cases hk : kv.1 = col
    · rw [if_pos hk]
      have hkc : ¬kv.1 = c := fun hc => hne (hc ▸ hk ▸ rfl)
      show lookupCol ((kv.1, v) :: _) c = lookupCol (kv :: t) c
      cases kv with
      | mk k w =>
        rw [lookupCol, lookupCol, if_neg hkc, if_neg hkc]
        exact ih
    · rw [if_neg hk]
      cases kv with
      | mk k w =>
        rw [lookupCol, lookupCol]
        by_cases hkc : k = c
        · rw [if_pos hkc, if_pos hkc]
        · rw [if_neg hkc, if_neg hkc]; exact ih

theorem processRecordOtherCols (conv : List Char → Except String (List Char))
    (col : String) (r : Row) (c : String) (hne : c ≠ col) :
    lookupCol (processRecord conv col r).1 c = lookupCol r c := by
  unfold processRecord
  cases lookupCol r col with
  | none => rfl
  | some html =>
    simp only
    split
    · cases conv html with
      | ok out => exact lookupSetColNe col c out hne r
      | error e => rfl
    · rfl

theorem processRecordErr (conv : List Char → Except String (List Char))
    (col : String) (r : Row) (html : List Char) (e : String)
    (hl : lookupCol r col = some html) (h1 : html ≠ []) (h2 : jsTrim html ≠ [])
    (he : conv html = .error e) :
    processRecord conv col r = (r, some e) := by
  unfold processRecord
  rw [hl]
  simp only [if_pos (And.intro h1 h2), he]

theorem processRecordSkip (conv : List Char → Except String (List Char))
    (col : String) (r : Row) (html : List Char)
    (hl : lookupCol r col = some html) (hws : jsTrim html = []) :
    processRecord conv col r = (r, none) := by
  unfold processRecord
  rw [hl]
  have : ¬(html ≠ [] ∧ jsTrim html ≠ []) := fun h => h.2 hws
  simp only [if_neg this]

theorem paraFlags (s : List Char) (b : Block) (hb : b ∈ paragraphPass s)
    (r : TextRun) (hr : r ∈ blockRuns b) :
    r.flags = [] ∨ ∃ a, r.flags = [a] := by
  unfold paragraphPass at hb
  rw [List.mem_map] at hb
  obtain ⟨cc, _, rfl⟩ := hb
  unfold mkParagraph at hr
  split at hr
  · rw [blockRuns, List.mem_singleton] at hr; subst hr; exact Or.inl rfl
  · rw [blockRuns] at hr; exact parseFlags cc r hr

theorem listItemsFlags (body : List Char) (kind : ListKind) (r : TextRun)
    (hr : r ∈ blockRuns
      (.list kind ((findBlocks "li".toList body).map mkListItem))) :
    r.flags = [] ∨ ∃ a, r.flags = [a] := by
  rw [blockRuns, List.mem_flatten] at hr
  obtain ⟨rl, h1, h2⟩ := hr
  rw [List.mem_map] at h1
  obtain ⟨it, hit, rfl⟩ := h1
  rw [List.mem_map] at hit
  obtain ⟨ic, _, rfl⟩ := hit
  exact parseFlags ic r h2

theorem hPassFlags (s : List Char) (lvl : Nat) (b : Block)
    (hb : b ∈ hPass s lvl) (r : TextRun) (hr : r ∈ blockRuns b) :
    r.flags = [] ∨ ∃ a, r.flags = [a] := by
  unfold hPass at hb
  rw [List.mem_map] at hb
  obtain ⟨cc, _, rfl⟩ := hb
  exact parseFlags cc r hr

/-!  Claim theorems. -/

/-- Claim C1: for every HTML input the root children appear in
construct-type pass order — all paragraph nodes first (in document
order), then all unordered-list nodes, then all ordered-list nodes, then
heading nodes grouped by level 1 through 6 — and in particular the input
with one paragraph, one heading, then one paragraph yields children
ordered paragraph, paragraph, heading. -/
theorem claim_C1_pass_order :
    (∀ s : List Char, htmlToJson s =
      .root (paragraphPass s ++ (ulPass s ++ olPass s) ++ headingPass s))
    ∧ (∀ s : List Char, headingPass s =
        hPass s 1 ++ hPass s 2 ++ hPass s 3 ++ hPass s 4 ++ hPass s 5 ++ hPass s 6)
    ∧ (∀ (s : List Char) (n : Block), n ∈ paragraphPass s →
        ∃ rs, n = .paragraph rs)
    ∧ (∀ (s : List Char) (n : Block), n ∈ ulPass s →
        ∃ its, n = .list .unordered its)
    ∧ (∀ (s : List Char) (n : Block), n ∈ olPass s →
        ∃ its, n = .list .ordered its)
    ∧ (∀ (s : List Char) (lvl : Nat) (n : Block), n ∈ hPass s lvl →
        ∃ rs, n = .heading lvl rs)
    ∧ htmlToJson "<p>A</p><h1>B</h1><p>C</p>".toList =
        .root [.paragraph [⟨['A'], []⟩], .paragraph [⟨['C'], []⟩],
               .heading 1 [⟨['B'], []⟩]] := by
  refine ⟨fun s => rfl, fun s => rfl, ?_, ?_, ?_, ?_, by decide⟩
  · intro s n hn
    unfold paragraphPass at hn
    rw [List.mem_map] at hn
    obtain ⟨c, _, rfl⟩ := hn
    unfold mkParagraph
    split
    · exact ⟨_, rfl⟩
    · exact ⟨_, rfl⟩
  · intro s n hn
    unfold ulPass at hn
    rw [List.mem_map] at hn
    obtain ⟨body, _, rfl⟩ := hn
    exact ⟨_, rfl⟩
  · intro s n hn
    unfold olPass at hn
    rw [List.mem_map] at hn
    obtain ⟨body, _, rfl⟩ := hn
    exact ⟨_, rfl⟩
  · intro s lvl n hn
    unfold hPass at hn
    rw [List.mem_map] at hn
    obtain ⟨c, _, rfl⟩ := hn
    exact ⟨_, rfl⟩

/-- Witness for C1 at a concrete input. -/
theorem claim_C1_witness :
    ∃ rs, (Block.paragraph [⟨['A'], []⟩] : Block) = .paragraph rs :=
  claim_C1_pass_order.2.2.1 "<p>A</p>".toList
    (Block.paragraph [⟨['A'], []⟩]) (by decide)

/-- Claim C2: `htmlToJson` is total and always returns a root node; in
the embedding the body of the source `try` consists of total operations,
so no exception escapes and the `catch` fallback is never needed. -/
theorem claim_C2_total_root (s : List Char) :
    ∃ cs, htmlToJson s = Node.root cs :=
  ⟨_, rfl⟩

/-- Claim C3 is refuted as stated: for the nested input
`<b>a<i>b</i>c</b>` the concatenated run values, with formatting markers
stripped, differ from the marker-stripped input (the inner text `b` is
duplicated and a stray `</b>` survives). -/
theorem claim_C3_counterexample :
    stripMarkers (concatValues (parseFormattedContent "<b>a<i>b</i>c</b>".toList)) ≠
      stripMarkers "<b>a<i>b</i>c</b>".toList := by
  decide

/-- Claim C3 (amended): when the discovered spans, sorted by start
offset, are pairwise non-overlapping, the input decomposes into plain
segments, genuine markers and inner texts (`rebuildSpans` is the
identity), and the concatenated run values are exactly the input with
the markers of each matched span deleted — markers removed, inner text
preserved once, order preserved, no gaps and no duplication. -/
theorem claim_C3_amended (c : List Char)
    (hd : spansDisjointFrom 0 (sortByStart (tagPositions c)) = true) :
    concatValues (parseFormattedContent c) =
      removeSpans c 0 (sortByStart (tagPositions c))
    ∧ rebuildSpans c 0 (sortByStart (tagPositions c)) = c
    ∧ ∀ p ∈ sortByStart (tagPositions c), IsMarkerSpan c p := by
  have hwf : ∀ p ∈ sortByStart (tagPositions c), SpanWF c p :=
    fun p hp => tagPositionsWF c p (memSortByStart p _ hp)
  have hord : ∀ p ∈ sortByStart (tagPositions c),
      p.start ≤ p.contentStart ∧ p.contentStart ≤ p.contentEnd ∧
      p.contentEnd ≤ p.stop := by
    intro p hp
    obtain ⟨t, _, _, hcs, hst, _, _, hce, _⟩ := hwf p hp
    exact ⟨by omega, hce, by omega⟩
  refine ⟨?_, ?_, ?_⟩
  · unfold parseFormattedContent
    split
    · rename_i h0
      rw [h0]
      show concatValues [⟨c, []⟩] = removeSpans c 0 (sortByStart [])
      rw [sortByStart, removeSpans, List.drop_zero]
      simp [concatValues]
    · exact concatBuildRuns c _ 0
  · rw [rebuildEq c _ 0 hord hd, List.drop_zero]
  · intro p hp
    obtain ⟨t, ht1, ht2, hcs, hst, hpre1, hpre2, hce, hlen⟩ := hwf p hp
    refine ⟨t, ht1, ht2, ?_, ?_, hlen⟩
    · rw [hcs]
      unfold extract
      rw [Nat.add_sub_cancel_left]
      exact (prefixTake t.start (c.drop p.start) hpre1).1
    · rw [hst]
      unfold extract
      rw [Nat.add_sub_cancel_left]
      exact (prefixTake t.stop (c.drop p.contentEnd) hpre2).1

/-- Witness for the amended C3 at a concrete input with one span. -/
theorem claim_C3_witness :
    concatValues (parseFormattedContent "x<b>y</b>z".toList) =
      removeSpans "x<b>y</b>z".toList 0
        (sortByStart (tagPositions "x<b>y</b>z".toList))
    ∧ rebuildSpans "x<b>y</b>z".toList 0
        (sortByStart (tagPositions "x<b>y</b>z".toList)) = "x<b>y</b>z".toList :=
  ⟨(claim_C3_amended "x<b>y</b>z".toList (by decide)).1,
   (claim_C3_amended "x<b>y</b>z".toList (by decide)).2.1⟩

/-- Claim C4: a paragraph whose inner content trims to nothing or to a
single `<br>` collapses to one unflagged TextRun with value a single
space, and that paragraph node is among the root children. -/
theorem claim_C4_empty_paragraph (s c : List Char)
    (hc : c ∈ paragraphContents s)
    (hcond : jsTrim c = [] ∨ jsTrim c = "<br>".toList) :
    mkParagraph c = .paragraph [⟨[' '], []⟩]
    ∧ (Block.paragraph [⟨[' '], []⟩]) ∈ (htmlToJson s).rootChildren := by
  have h1 : mkParagraph c = .paragraph [⟨[' '], []⟩] := by
    unfold mkParagraph
    rw [if_pos hcond]
  refine ⟨h1, ?_⟩
  show _ ∈ paragraphPass s ++ (ulPass s ++ olPass s) ++ headingPass s
  refine List.mem_append.mpr (Or.inl (List.mem_append.mpr (Or.inl ?_)))
  rw [← h1]
  exact List.mem_map_of_mem mkParagraph hc

/-- Witness for C4 at a concrete whitespace-only paragraph. -/
theorem claim_C4_witness :
    mkParagraph ([' '] : List Char) = .paragraph [⟨[' '], []⟩]
    ∧ (Block.paragraph [⟨[' '], []⟩]) ∈
        (htmlToJson "<p> </p>".toList).rootChildren :=
  claim_C4_empty_paragraph "<p> </p>".toList [' '] (by decide)
    (Or.inl (by decide))

/-- Claim C5: on content where no opening/closing marker pair of any
table entry is found, the segmenter yields exactly one unflagged TextRun
whose value is the input. -/
theorem claim_C5_plain_identity (c : List Char) (h : tagPositions c = []) :
    parseFormattedContent c = [⟨c, []⟩] := by
  unfold parseFormattedContent
  rw [if_pos h]

/-- Witness for C5 on plain text. -/
theorem claim_C5_witness :
    parseFormattedContent "hello".toList = [⟨"hello".toList, []⟩] :=
  claim_C5_plain_identity "hello".toList (by decide)

/-- Claim C6: when no paragraph, unordered-list, ordered-list, or
heading span is matched, the root children list is empty. -/
theorem claim_C6_empty_root (s : List Char)
    (hp : paragraphContents s = [])
    (hul : findBlocks "ul".toList s = [])
    (hol : findBlocks "ol".toList s = [])
    (hh : ∀ k ∈ ([1, 2, 3, 4, 5, 6] : List Nat), findBlocks (hTag k) s = []) :
    (htmlToJson s).rootChildren = [] := by
  have h1 : paragraphPass s = [] := by unfold paragraphPass; rw [hp]; rfl
  have h2 : ulPass s = [] := by unfold ulPass; rw [hul]; rfl
  have h3 : olPass s = [] := by unfold olPass; rw [hol]; rfl
  have hk : ∀ k ∈ ([1, 2, 3, 4, 5, 6] : List Nat), hPass s k = [] := by
    intro k hkmem
    unfold hPass
    rw [hh k hkmem]
    rfl
  have h4 : headingPass s = [] := by
    unfold headingPass
    rw [hk 1 (by simp), hk 2 (by simp), hk 3 (by simp), hk 4 (by simp),
        hk 5 (by simp), hk 6 (by simp)]
    rfl
  show paragraphPass s ++ (ulPass s ++ olPass s) ++ headingPass s = []
  rw [h1, h2, h3, h4]
  rfl

/-- Witness for C6 on block-free text. -/
theorem claim_C6_witness : (htmlToJson "hello world".toList).rootChildren = [] :=
  claim_C6_empty_root "hello world".toList (by decide) (by decide) (by decide)
    (by decide)

/-- Claim C7: every TextRun anywhere in the tree produced by
`htmlToJson` carries at most one formatting flag — none for plain runs,
exactly one for runs emitted from a matched span. -/
theorem claim_C7_single_flag (s : List Char) (r : TextRun)
    (h : r ∈ collectRuns (htmlToJson s)) :
    r.flags = [] ∨ ∃ a, r.flags = [a] := by
  have h2 : r ∈ collectRuns
      (.root (paragraphPass s ++ (ulPass s ++ olPass s) ++ headingPass s)) := h
  rw [collectRuns, List.mem_flatten] at h2
  obtain ⟨l, hl, hrl⟩ := h2
  rw [List.mem_map] at hl
  obtain ⟨b, hb, rfl⟩ := hl
  rcases List.mem_append.mp hb with hb1 | hbh
  · rcases List.mem_append.mp hb1 with hbp | hblist
    · exact paraFlags s b hbp r hrl
    · rcases List.mem_append.mp hblist with hbul | hbol
      · unfold ulPass at hbul
        rw [List.mem_map] at hbul
        obtain ⟨body, _, rfl⟩ := hbul
        exact listItemsFlags body .unordered r hrl
      · unfold olPass at hbol
        rw [List.mem_map] at hbol
        obtain ⟨body, _, rfl⟩ := hbol
        exact listItemsFlags body .ordered r hrl
  · unfold headingPass at hbh
    rcases List.mem_append.mp hbh with hb5 | h6
    rcases List.mem_append.mp hb5 with hb4 | h5
    rcases List.mem_append.mp hb4 with hb3 | h4
    rcases List.mem_append.mp hb3 with hb2 | h3
    rcases List.mem_append.mp hb2 with h1 | h2x
    · exact hPassFlags s 1 b h1 r hrl
    · exact hPassFlags s 2 b h2x r hrl
    · exact hPassFlags s 3 b h3 r hrl
    · exact hPassFlags s 4 b h4 r hrl
    · exact hPassFlags s 5 b h5 r hrl
    · exact hPassFlags s 6 b h6 r hrl

/-- Witness for C7 at a concrete flagged run in a concrete tree. -/
theorem claim_C7_witness :
    (⟨"world".toList, [Attr.italic]⟩ : TextRun).flags = [] ∨
      ∃ a, (⟨"world".toList, [Attr.italic]⟩ : TextRun).flags = [a] :=
  claim_C7_single_flag "<p>Hello <em>world</em></p>".toList
    ⟨"world".toList, [Attr.italic]⟩ (by decide)

/-- Claim C8: in the row map of `processCSV`, a row whose cell
conversion fails keeps its original record unchanged, a warning carrying
the one-based row index is recorded, every row is still processed
independently, and columns other than the target are untouched in every
output row. -/
theorem claim_C8_row_error (conv : List Char → Except String (List Char))
    (col : String) (records : List Row) (i : Nat) (r : Row)
    (html : List Char) (e : String)
    (hr : records[i]? = some r)
    (hcell : lookupCol r col = some html)
    (h1 : html ≠ []) (h2 : jsTrim html ≠ [])
    (herr : conv html = Except.error e) :
    (processAll conv col 0 records).1[i]? = some r
    ∧ (i + 1) ∈ (processAll conv col 0 records).2
    ∧ (∀ j : Nat, (processAll conv col 0 records).1[j]? =
        (records[j]?).map (fun rj => (processRecord conv col rj).1))
    ∧ (∀ (j : Nat) (rj rj2 : Row) (c : String), c ≠ col →
        records[j]? = some rj →
        (processAll conv col 0 records).1[j]? = some rj2 →
        lookupCol rj2 c = lookupCol rj c) := by
  have hfst := processAllFst conv col records 0
  have herr2 := processRecordErr conv col r html e hcell h1 h2 herr
  refine ⟨?_, ?_, ?_, ?_⟩
  · rw [hfst, mapNth, hr]
    simp [herr2]
  · have hw := processAllWarn conv col records 0 i r hr (by rw [herr2]; rfl)
    simpa using hw
  · intro j
    rw [hfst, mapNth]
  · intro j rj rj2 c hc hj hj2
    rw [hfst, mapNth, hj] at hj2
    simp at hj2
    rw [← hj2]
    exact processRecordOtherCols conv col rj c hc

/-- Witness for C8 with a conversion that always fails. -/
theorem claim_C8_witness :
    (processAll (fun _ => Except.error "boom") "Body HTML" 0
        [[("Body HTML", ['x'])]]).1[0]? = some [("Body HTML", ['x'])]
    ∧ 1 ∈ (processAll (fun _ => Except.error "boom") "Body HTML" 0
        [[("Body HTML", ['x'])]]).2 := by
  have h := claim_C8_row_error (fun _ => Except.error "boom") "Body HTML"
    [[("Body HTML", ['x'])]] 0 [("Body HTML", ['x'])] ['x'] "boom"
    rfl rfl (by decide) (by decide) rfl
  exact ⟨h.1, h.2.1⟩

/-- Claim C9: with at least one span discovered, every unflagged run the
segmenter emits is non-empty (zero-length plain text is suppressed),
while a matched span with empty inner content still emits an empty run
carrying its flag. -/
theorem claim_C9_empty_runs :
    (∀ (c : List Char) (r : TextRun), tagPositions c ≠ [] →
      r ∈ parseFormattedContent c → r.flags = [] → r.value ≠ [])
    ∧ parseFormattedContent "<b></b>".toList = [⟨[], [Attr.bold]⟩] := by
  constructor
  · intro c r hne hr hfl
    unfold parseFormattedContent at hr
    rw [if_neg hne] at hr
    exact buildRunsPlainNonempty c _ 0 r hr hfl
  · decide

/-- Witness for the universally quantified part of C9. -/
theorem claim_C9_witness : (⟨['x'], []⟩ : TextRun).value ≠ [] :=
  claim_C9_empty_runs.1 "x<b>y</b>".toList ⟨['x'], []⟩ (by decide) (by decide)
    rfl

/-- Claim C10: a target-column cell whose content is empty or
whitespace-only is never converted; the record passes through unchanged
with no warning, and stays unchanged in the full row map. -/
theorem claim_C10_skip_empty (conv : List Char → Except String (List Char))
    (col : String) (r : Row) (html : List Char)
    (hcell : lookupCol r col = some html) (hws : jsTrim html = []) :
    processRecord conv col r = (r, none)
    ∧ ∀ (records : List Row) (n i : Nat), records[i]? = some r →
        (processAll conv col n records).1[i]? = some r := by
  have hskip := processRecordSkip conv col r html hcell hws
  refine ⟨hskip, ?_⟩
  intro records n i hi
  rw [processAllFst conv col records n, mapNth, hi]
  simp [hskip]

/-- Witness for C10 on a whitespace-only cell. -/
theorem claim_C10_witness :
    processRecord (fun _ => Except.ok []) "Body HTML" [("Body HTML", [' '])] =
      ([("Body HTML", [' '])], none) :=
  (claim_C10_skip_empty (fun _ => Except.ok []) "Body HTML"
    [("Body HTML", [' '])] [' '] rfl (by decide)).1
